import Mathlib

/-!
Shallow embedding of a conservative mark-and-sweep garbage collector
(source: `src/gc.h`, `src/gc.cpp`) and proofs about it.

Memory model: addresses are natural numbers and `0` plays the role of the
null pointer.  Each allocated object is a `Block` recording the fields of
the C `ObjectHeader` (`marked`, `size`) together with the address of its
user data region (`addr`, the C `(void*)(header + 1)`) and the machine
words stored in that region (`data`, the words the conservative scan
reads).  The intrusive `next`-linked registry rooted at `heap_start` is a
`List Block`, head first, and the state-mutating C functions become
functions from registries to registries.  The Root Region (the stack
extent scanned by `gc_mark`) enters as the list of words the root scan
reads, since the machine stack itself lies outside the embedding.
-/

/-- One allocated object: the C `ObjectHeader` fields `marked` and `size`
together with the address and word contents of its data region.  The
`next` pointer of the header is the list structure of the registry. -/
structure Block where
  marked : Bool
  size : Nat
  addr : Nat
  data : List Nat
deriving DecidableEq, Repr

/-- `sizeof(ObjectHeader)` on an LP64 platform: `bool` (1 byte, padded to
8), `size_t` (8), pointer (8). -/
def headerSize : Nat := 24

/-- Bit width of `size_t`; `size_t` arithmetic wraps modulo `2 ^ wbits`. -/
def wbits : Nat := 64

/-- `get_header_from_data_ptr`: linearly scan the registry; a block owns
`ptr` exactly when `obj_start <= ptr < obj_end` for its data region. -/
def get_header_from_data_ptr : List Block → Nat → Option Block
  | [], _ => none
  | b :: rest, ptr =>
    if b.addr ≤ ptr ∧ ptr < b.addr + b.size then some b
    else get_header_from_data_ptr rest ptr

/-- `header->marked = true`.  Blocks are identified by the address of
their data region: the C code mutates through the header pointer, and in a
well-formed registry (`WF` below) addresses identify blocks. -/
def markBlock : List Block → Nat → List Block
  | [], _ => []
  | b :: rest, a => (if b.addr = a then { b with marked := true } else b) :: markBlock rest a

/-- Number of unmarked blocks in the registry: the termination measure of
the mark recursion (a block is marked before its data is scanned, so each
level of recursion below `gc_mark_object` owns one freshly marked block). -/
def unmarkedCount : List Block → Nat
  | [] => 0
  | b :: rest => (if b.marked then 0 else 1) + unmarkedCount rest

/-- A block found by the containment scan is a member of the registry.
(Prop-valued helper, needed by the termination argument of the mark
traversal below.) -/
def get_header_mem {heap : List Block} {ptr : Nat} {b : Block}
    (h : get_header_from_data_ptr heap ptr = some b) : b ∈ heap := by
  induction heap with
  | nil => simp [get_header_from_data_ptr] at h
  | cons c t ih =>
    rw [get_header_from_data_ptr] at h
    split at h
    · injection h with h
      subst h
      exact List.mem_cons_self c t
    · exact List.mem_cons_of_mem c (ih h)

/-- Marking an address never increases the number of unmarked blocks. -/
def unmarkedCount_markBlock_le (heap : List Block) (a : Nat) :
    unmarkedCount (markBlock heap a) ≤ unmarkedCount heap := by
  induction heap with
  | nil => simp [markBlock]
  | cons c t ih =>
    simp only [markBlock, unmarkedCount]
    by_cases hd : c.addr = a
    · rw [if_pos hd]
      simp
      omega
    · rw [if_neg hd]
      omega

/-- Marking the address of a block the containment scan found unmarked
strictly decreases the number of unmarked blocks. -/
def unmarkedCount_markBlock_lt {heap : List Block} {ptr : Nat} {b : Block}
    (hfind : get_header_from_data_ptr heap ptr = some b) (hb : b.marked = false) :
    unmarkedCount (markBlock heap b.addr) < unmarkedCount heap := by
  induction heap with
  | nil => simp [get_header_from_data_ptr] at hfind
  | cons c t ih =>
    rw [get_header_from_data_ptr] at hfind
    simp only [markBlock, unmarkedCount]
    split at hfind
    · injection hfind with hcb
      subst hcb
      rw [if_pos rfl, hb]
      have := unmarkedCount_markBlock_le t c.addr
      simp
      omega
    · have := ih hfind
      by_cases hd : c.addr = b.addr
      · rw [if_pos hd]
        cases hcm : c.marked <;> simp [hcm] <;> omega
      · rw [if_neg hd]
        omega

/-- The mark traversal, written as a worklist: `work` holds the candidate
words whose recursive `gc_mark_object` calls are still pending, depth
first.  This is the defunctionalized form of the mutually recursive C pair
`gc_mark_object` / `gc_mark_from_region`: popping a word performs the body
of `gc_mark_object` on it, and scanning a freshly marked block prepends
its data words to the worklist.  `gc_mark_object_rec` below transcribes
the C recursion literally, and the two are proved to agree. -/
def gc_mark_loop (heap : List Block) (work : List Nat) : List Block :=
  match work with
  | [] => heap
  | ptr :: rest =>
    if ptr = 0 then
      gc_mark_loop heap rest
    else
      match hfind : get_header_from_data_ptr heap ptr with
      | none => gc_mark_loop heap rest
      | some b =>
        if b.marked then gc_mark_loop heap rest
        else gc_mark_loop (markBlock heap b.addr) (b.data ++ rest)
termination_by (unmarkedCount heap, work.length)
decreasing_by
  · exact Prod.Lex.right _ (Nat.lt_succ_self _)
  · exact Prod.Lex.right _ (Nat.lt_succ_self _)
  · exact Prod.Lex.right _ (Nat.lt_succ_self _)
  · apply Prod.Lex.left
    rename_i hunmarked
    exact unmarkedCount_markBlock_lt hfind (by simpa using hunmarked)

/-- `gc_mark_object`, as a total function (through the worklist form). -/
def gc_mark_object (heap : List Block) (ptr : Nat) : List Block :=
  gc_mark_loop heap [ptr]

/-- `gc_mark_from_region`: scan a region word by word, invoking
`gc_mark_object` on the value at each word position. -/
def gc_mark_from_region (heap : List Block) (words : List Nat) : List Block :=
  words.foldl gc_mark_object heap

/-- `gc_mark`: scan the Root Region.  The C function reads the words
between the captured stack top and the recorded stack bottom; those word
values are the `roots` parameter here. -/
def gc_mark (heap : List Block) (roots : List Nat) : List Block :=
  gc_mark_from_region heap roots

/-- `gc_sweep`: the first component is the surviving registry (marked
blocks, mark bit cleared, original order), the second the freed blocks
(the `free(current)` calls, in order). -/
def gc_sweep : List Block → List Block × List Block
  | [] => ([], [])
  | b :: rest =>
    let s := gc_sweep rest
    if b.marked then ({ b with marked := false } :: s.1, s.2)
    else (s.1, b :: s.2)

/-- `gc_collect`: mark, then sweep. -/
def gc_collect (heap : List Block) (roots : List Nat) : List Block × List Block :=
  gc_sweep (gc_mark heap roots)

mutual
/-- Literal fuel-indexed transcription of the recursive C `gc_mark_object`.
`fuel` bounds the depth of nested `gc_mark_object` calls; `none` means the
recursion would have to nest deeper than `fuel`. -/
def gc_mark_object_rec : Nat → List Block → Nat → Option (List Block)
  | 0, _, _ => none
  | fuel + 1, heap, ptr =>
    if ptr = 0 then some heap
    else
      match get_header_from_data_ptr heap ptr with
      | none => some heap
      | some b =>
        if b.marked then some heap
        else gc_mark_region_rec fuel (markBlock heap b.addr) b.data
termination_by fuel _ _ => (fuel, 0)

/-- Literal fuel-indexed transcription of `gc_mark_from_region`. -/
def gc_mark_region_rec : Nat → List Block → List Nat → Option (List Block)
  | _, heap, [] => some heap
  | fuel, heap, w :: rest =>
    match gc_mark_object_rec fuel heap w with
    | none => none
    | some h => gc_mark_region_rec fuel h rest
termination_by fuel _ ws => (fuel, ws.length + 1)
end

/-- Observable outcome of one `GC_malloc` call: the resulting registry,
the returned data pointer (`0` for `nullptr`), the byte counts requested
from the system `malloc`, and the number of collection cycles run. -/
structure MallocOut where
  heap : List Block
  ret : Nat
  requests : List Nat
  collections : Nat
deriving DecidableEq, Repr

/-- `GC_malloc`.  The stateful system allocator is abstracted by the
outcomes of its at most two invocations: `alloc1 n` is what the first
`malloc(n)` returns, `alloc2 n` what the retry after the collection cycle
returns (`none` is `nullptr`; `some a` a fresh region whose header sits at
`a`, so the data region starts at `a + headerSize`).  `roots` is the Root
Region scanned by the collection run on failure; `d` is the (unspecified)
initial content of the new data region. -/
def GC_malloc (alloc1 alloc2 : Nat → Option Nat) (roots : List Nat) (d : List Nat)
    (heap : List Block) (size : Nat) : MallocOut :=
  let total_size := (headerSize + size) % 2 ^ wbits
  match alloc1 total_size with
  | some a =>
    let header : Block := { marked := false, size := size, addr := a + headerSize, data := d }
    { heap := header :: heap, ret := a + headerSize, requests := [total_size], collections := 0 }
  | none =>
    let swept := (gc_collect heap roots).1
    match alloc2 total_size with
    | some a =>
      let header : Block := { marked := false, size := size, addr := a + headerSize, data := d }
      { heap := header :: swept, ret := a + headerSize,
        requests := [total_size, total_size], collections := 1 }
    | none =>
      { heap := swept, ret := 0, requests := [total_size, total_size], collections := 1 }

/-- Two blocks whose data regions do not overlap (the guarantee the system
allocator gives for distinct live allocations). -/
abbrev dataDisjoint (b c : Block) : Prop :=
  b.addr + b.size ≤ c.addr ∨ c.addr + c.size ≤ b.addr

/-- Well-formed registry, as real memory provides it: data regions are
pairwise disjoint, every data region starts above the null address, the
scanned words fill the data region (one word per 8 bytes, the C loop reads
the region in `ceil(size / 8)` word steps), and data addresses identify
blocks. -/
abbrev WF (heap : List Block) : Prop :=
  heap.Pairwise dataDisjoint
    ∧ (∀ b ∈ heap, 0 < b.addr ∧ b.data.length = (b.size + 7) / 8)
    ∧ (heap.map Block.addr).Nodup

/-- Equal shape: same address, size and data contents; the mark bit is
unconstrained. -/
def eqShape (b c : Block) : Prop := b.addr = c.addr ∧ b.size = c.size ∧ b.data = c.data

/-- Pointwise along the registry: shapes agree and marks only grow. -/
def MarkLe (h₁ h₂ : List Block) : Prop :=
  List.Forall₂ (fun b c => eqShape b c ∧ (b.marked = true → c.marked = true)) h₁ h₂

/-- Pointwise equal shapes along the registry. -/
def ShapeEq (h₁ h₂ : List Block) : Prop := List.Forall₂ eqShape h₁ h₂

/-- Some block of the registry with data address `a` is marked. -/
def markedAt (heap : List Block) (a : Nat) : Prop :=
  ∃ b ∈ heap, b.marked = true ∧ b.addr = a

/-- Spec-level reachability: a block is transitively reachable from the
Root Region when some root word, or some word stored in an already
reachable block, lies in its data region. -/
inductive Reachable (heap : List Block) (roots : List Nat) : Block → Prop where
  | root : ∀ w b, w ∈ roots → get_header_from_data_ptr heap w = some b →
      Reachable heap roots b
  | step : ∀ c w b, Reachable heap roots c → w ∈ c.data →
      get_header_from_data_ptr heap w = some b → Reachable heap roots b

/-- Addresses the worklist traversal still has to mark, cut at the set `M`
of already marked addresses: a block of `M` is neither re-marked nor
re-scanned, so paths through it contribute nothing. -/
inductive ReachThru (heap : List Block) (M : Nat → Prop) (ws : List Nat) : Nat → Prop where
  | root : ∀ w b, w ∈ ws → get_header_from_data_ptr heap w = some b → ¬ M b.addr →
      ReachThru heap M ws b.addr
  | step : ∀ a c w b, ReachThru heap M ws a → c ∈ heap → c.addr = a → w ∈ c.data →
      get_header_from_data_ptr heap w = some b → ¬ M b.addr → ReachThru heap M ws b.addr

/-- A block returned by the containment scan contains the scanned word. -/
theorem get_header_contains {heap : List Block} {ptr : Nat} {b : Block}
    (h : get_header_from_data_ptr heap ptr = some b) :
    b.addr ≤ ptr ∧ ptr < b.addr + b.size := by
  induction heap with
  | nil => simp [get_header_from_data_ptr] at h
  | cons c t ih =>
    rw [get_header_from_data_ptr] at h
    split at h
    · injection h with h
      subst h
      assumption
    · exact ih h

/-- In a registry of positive data addresses, the null pointer is inside
no block. -/
theorem get_header_zero {heap : List Block}
    (hpos : ∀ b ∈ heap, 0 < b.addr) :
    get_header_from_data_ptr heap 0 = none := by
  induction heap with
  | nil => rfl
  | cons c t ih =>
    rw [get_header_from_data_ptr]
    have hc : ¬ (c.addr ≤ 0 ∧ 0 < c.addr + c.size) := by
      have := hpos c (List.mem_cons_self c t)
      omega
    rw [if_neg hc]
    exact ih fun b hb => hpos b (List.mem_cons_of_mem c hb)

/-- Unfolding: an empty worklist changes nothing. -/
theorem gc_mark_loop_nil (heap : List Block) : gc_mark_loop heap [] = heap := by
  rw [gc_mark_loop]

/-- Unfolding: a null candidate word is skipped. -/
theorem gc_mark_loop_cons_zero (heap : List Block) (rest : List Nat) :
    gc_mark_loop heap (0 :: rest) = gc_mark_loop heap rest := by
  rw [gc_mark_loop]
  rw [if_pos rfl]

/-- Unfolding: a word inside no block is skipped. -/
theorem gc_mark_loop_cons_none {heap : List Block} {ptr : Nat} (rest : List Nat)
    (h : get_header_from_data_ptr heap ptr = none) :
    gc_mark_loop heap (ptr :: rest) = gc_mark_loop heap rest := by
  rw [gc_mark_loop]
  by_cases hp : ptr = 0
  · rw [if_pos hp]
  · rw [if_neg hp, h]

/-- Unfolding: a word owned by an already marked block is skipped. -/
theorem gc_mark_loop_cons_marked {heap : List Block} {ptr : Nat} {b : Block} (rest : List Nat)
    (hp : ptr ≠ 0) (h : get_header_from_data_ptr heap ptr = some b) (hm : b.marked = true) :
    gc_mark_loop heap (ptr :: rest) = gc_mark_loop heap rest := by
  rw [gc_mark_loop, if_neg hp, h]
  split
  · rename_i heq
    exact Option.noConfusion heq
  · rename_i b1 heq
    injection heq with heq
    subst heq
    rw [if_pos hm]

/-- Unfolding: a word owned by an unmarked block marks it and queues its
data words, depth first. -/
theorem gc_mark_loop_cons_unmarked {heap : List Block} {ptr : Nat} {b : Block} (rest : List Nat)
    (hp : ptr ≠ 0) (h : get_header_from_data_ptr heap ptr = some b) (hm : b.marked = false) :
    gc_mark_loop heap (ptr :: rest) = gc_mark_loop (markBlock heap b.addr) (b.data ++ rest) := by
  rw [gc_mark_loop, if_neg hp, h]
  split
  · rename_i heq
    exact Option.noConfusion heq
  · rename_i b1 heq
    injection heq with heq
    subst heq
    rw [if_neg (by rw [hm]; exact Bool.false_ne_true)]

/-- The worklist traversal processes an appended worklist in two stages. -/
theorem gc_mark_loop_append (heap : List Block) (xs ys : List Nat) :
    gc_mark_loop heap (xs ++ ys) = gc_mark_loop (gc_mark_loop heap xs) ys := by
  induction heap, xs using gc_mark_loop.induct generalizing ys with
  | case1 heap => rw [gc_mark_loop_nil, List.nil_append]
  | case2 heap rest ih =>
    rw [List.cons_append, gc_mark_loop_cons_zero, gc_mark_loop_cons_zero, ih]
  | case3 heap ptr rest hp hfind ih =>
    rw [List.cons_append, gc_mark_loop_cons_none _ hfind, gc_mark_loop_cons_none _ hfind, ih]
  | case4 heap ptr rest hp b hfind hm ih =>
    rw [List.cons_append, gc_mark_loop_cons_marked _ hp hfind hm,
      gc_mark_loop_cons_marked _ hp hfind hm, ih]
  | case5 heap ptr rest hp b hfind hm ih =>
    rw [List.cons_append, gc_mark_loop_cons_unmarked _ hp hfind (by simpa using hm),
      gc_mark_loop_cons_unmarked _ hp hfind (by simpa using hm), ← List.append_assoc, ih]

/-- Processing one worklist word is one `gc_mark_object` call. -/
theorem gc_mark_loop_cons (heap : List Block) (w : Nat) (ws : List Nat) :
    gc_mark_loop heap (w :: ws) = gc_mark_loop (gc_mark_object heap w) ws := by
  have h := gc_mark_loop_append heap [w] ws
  simpa [gc_mark_object] using h

/-- The region scan is the worklist traversal of the region words. -/
theorem gc_mark_from_region_eq_loop (heap : List Block) (ws : List Nat) :
    gc_mark_from_region heap ws = gc_mark_loop heap ws := by
  induction ws generalizing heap with
  | nil => rw [gc_mark_from_region, List.foldl_nil, gc_mark_loop_nil]
  | cons w rest ih =>
    rw [gc_mark_from_region, List.foldl_cons, gc_mark_loop_cons]
    simpa [gc_mark_from_region] using ih (gc_mark_object heap w)

/-- `gc_mark_object` on the null pointer is a no-op. -/
theorem gc_mark_object_zero (heap : List Block) : gc_mark_object heap 0 = heap := by
  rw [gc_mark_object, gc_mark_loop_cons_zero, gc_mark_loop_nil]

/-- `gc_mark_object` on a word inside no block is a no-op. -/
theorem gc_mark_object_none {heap : List Block} {ptr : Nat}
    (hfind : get_header_from_data_ptr heap ptr = none) : gc_mark_object heap ptr = heap := by
  rw [gc_mark_object, gc_mark_loop_cons_none _ hfind, gc_mark_loop_nil]

/-- `gc_mark_object` on a word of an already marked block is a no-op. -/
theorem gc_mark_object_marked {heap : List Block} {ptr : Nat} {b : Block} (hp : ptr ≠ 0)
    (hfind : get_header_from_data_ptr heap ptr = some b) (hm : b.marked = true) :
    gc_mark_object heap ptr = heap := by
  rw [gc_mark_object, gc_mark_loop_cons_marked _ hp hfind hm, gc_mark_loop_nil]

/-- `gc_mark_object` on a word of an unmarked block: mark it first, then
scan its data region (the defining recursion of the C function). -/
theorem gc_mark_object_unmarked {heap : List Block} {ptr : Nat} {b : Block} (hp : ptr ≠ 0)
    (hfind : get_header_from_data_ptr heap ptr = some b) (hm : b.marked = false) :
    gc_mark_object heap ptr = gc_mark_from_region (markBlock heap b.addr) b.data := by
  rw [gc_mark_object, gc_mark_loop_cons_unmarked _ hp hfind hm, List.append_nil,
    gc_mark_from_region_eq_loop]

/-- `eqShape` is reflexive. -/
theorem eqShape_refl (b : Block) : eqShape b b := ⟨rfl, rfl, rfl⟩

/-- `MarkLe` is reflexive. -/
theorem MarkLe.refl (heap : List Block) : MarkLe heap heap := by
  induction heap with
  | nil => exact List.Forall₂.nil
  | cons b t ih => exact List.Forall₂.cons ⟨eqShape_refl b, fun h => h⟩ ih

/-- `MarkLe` is transitive. -/
theorem MarkLe.trans {h₁ h₂ h₃ : List Block} (hab : MarkLe h₁ h₂) (hbc : MarkLe h₂ h₃) :
    MarkLe h₁ h₃ := by
  induction hab generalizing h₃ with
  | nil =>
    cases hbc
    exact List.Forall₂.nil
  | cons hxy htail ih =>
    cases hbc with
    | cons hyz htail2 =>
      refine List.Forall₂.cons ?_ (ih htail2)
      obtain ⟨⟨ha1, hs1, hd1⟩, hm1⟩ := hxy
      obtain ⟨⟨ha2, hs2, hd2⟩, hm2⟩ := hyz
      exact ⟨⟨ha1.trans ha2, hs1.trans hs2, hd1.trans hd2⟩, fun h => hm2 (hm1 h)⟩

/-- Marking one address only raises mark bits, pointwise. -/
theorem markBlock_markLe (heap : List Block) (a : Nat) : MarkLe heap (markBlock heap a) := by
  induction heap with
  | nil => exact List.Forall₂.nil
  | cons c t ih =>
    simp only [markBlock]
    refine List.Forall₂.cons ?_ ih
    by_cases hd : c.addr = a
    · rw [if_pos hd]
      exact ⟨⟨rfl, rfl, rfl⟩, fun _ => rfl⟩
    · rw [if_neg hd]
      exact ⟨eqShape_refl c, fun h => h⟩

/-- The worklist traversal only raises mark bits, pointwise. -/
theorem gc_mark_loop_markLe (heap : List Block) (ws : List Nat) :
    MarkLe heap (gc_mark_loop heap ws) := by
  induction heap, ws using gc_mark_loop.induct with
  | case1 heap => rw [gc_mark_loop_nil]; exact MarkLe.refl heap
  | case2 heap rest ih => rw [gc_mark_loop_cons_zero]; exact ih
  | case3 heap ptr rest hp hfind ih => rw [gc_mark_loop_cons_none _ hfind]; exact ih
  | case4 heap ptr rest hp b hfind hm ih =>
    rw [gc_mark_loop_cons_marked _ hp hfind hm]; exact ih
  | case5 heap ptr rest hp b hfind hm ih =>
    rw [gc_mark_loop_cons_unmarked _ hp hfind (by simpa using hm)]
    exact MarkLe.trans (markBlock_markLe heap b.addr) ih

/-- Pointwise mark growth, forgetting marks: equal shapes. -/
theorem MarkLe.shapeEq {h₁ h₂ : List Block} (h : MarkLe h₁ h₂) : ShapeEq h₁ h₂ := by
  induction h with
  | nil => exact List.Forall₂.nil
  | cons hx ht ih => exact List.Forall₂.cons hx.1 ih

/-- The containment scan transfers along pointwise mark growth: the same
position is found, with equal shape and a no smaller mark bit. -/
theorem get_header_markLe {h₁ h₂ : List Block} (h : MarkLe h₁ h₂) (ptr : Nat) :
    (get_header_from_data_ptr h₁ ptr = none → get_header_from_data_ptr h₂ ptr = none)
    ∧ ∀ b, get_header_from_data_ptr h₁ ptr = some b →
        ∃ c, get_header_from_data_ptr h₂ ptr = some c ∧ eqShape b c
          ∧ (b.marked = true → c.marked = true) := by
  induction h with
  | nil =>
    refine ⟨fun _ => rfl, fun b hb => ?_⟩
    simp [get_header_from_data_ptr] at hb
  | cons hx ht ih =>
    rename_i x y t₁ t₂
    obtain ⟨⟨ha, hs, hd⟩, hm⟩ := hx
    have hcond : (x.addr ≤ ptr ∧ ptr < x.addr + x.size)
        ↔ (y.addr ≤ ptr ∧ ptr < y.addr + y.size) := by rw [ha, hs]
    constructor
    · intro hn
      rw [get_header_from_data_ptr] at hn ⊢
      by_cases hc : x.addr ≤ ptr ∧ ptr < x.addr + x.size
      · rw [if_pos hc] at hn
        exact Option.noConfusion hn
      · rw [if_neg hc] at hn
        rw [if_neg fun hyc => hc (hcond.mpr hyc)]
        exact ih.1 hn
    · intro b hb
      rw [get_header_from_data_ptr] at hb ⊢
      by_cases hc : x.addr ≤ ptr ∧ ptr < x.addr + x.size
      · rw [if_pos hc] at hb
        injection hb with hb
        subst hb
        refine ⟨y, ?_, ⟨ha, hs, hd⟩, hm⟩
        rw [if_pos (hcond.mp hc)]
      · rw [if_neg hc] at hb
        rw [if_neg fun hyc => hc (hcond.mpr hyc)]
        exact ih.2 b hb

/-- The containment scan commutes with marking an address: it finds the
marked copy of the block it found before. -/
theorem get_header_markBlock (heap : List Block) (a : Nat) (ptr : Nat) :
    get_header_from_data_ptr (markBlock heap a) ptr
      = Option.map (fun b => if b.addr = a then { b with marked := true } else b)
          (get_header_from_data_ptr heap ptr) := by
  induction heap with
  | nil => rfl
  | cons c t ih =>
    simp only [markBlock]
    rw [get_header_from_data_ptr, get_header_from_data_ptr]
    have haddr : (if c.addr = a then { c with marked := true } else c).addr = c.addr := by
      by_cases hd : c.addr = a
      · rw [if_pos hd]
      · rw [if_neg hd]
    have hsize : (if c.addr = a then { c with marked := true } else c).size = c.size := by
      by_cases hd : c.addr = a
      · rw [if_pos hd]
      · rw [if_neg hd]
    rw [haddr, hsize]
    by_cases hc : c.addr ≤ ptr ∧ ptr < c.addr + c.size
    · rw [if_pos hc, if_pos hc]
      rfl
    · rw [if_neg hc, if_neg hc, ih]

/-- Pointwise mark growth cannot increase the number of unmarked blocks. -/
theorem unmarkedCount_markLe {h₁ h₂ : List Block} (h : MarkLe h₁ h₂) :
    unmarkedCount h₂ ≤ unmarkedCount h₁ := by
  induction h with
  | nil => exact Nat.le_refl 0
  | cons hx ht ih =>
    rename_i x y t₁ t₂
    simp only [unmarkedCount]
    have hh : (if y.marked then 0 else 1) ≤ (if x.marked then 0 else 1) := by
      cases hxm : x.marked
      · cases y.marked <;> simp
      · rw [hx.2 hxm]
    omega

/-- The worklist traversal never increases the number of unmarked blocks. -/
theorem unmarkedCount_gc_mark_loop_le (heap : List Block) (ws : List Nat) :
    unmarkedCount (gc_mark_loop heap ws) ≤ unmarkedCount heap :=
  unmarkedCount_markLe (gc_mark_loop_markLe heap ws)

/-- Unfolding of the fuel transcription: null pointer. -/
theorem gc_mark_object_rec_zero (fuel : Nat) (heap : List Block) :
    gc_mark_object_rec (fuel + 1) heap 0 = some heap := by
  rw [gc_mark_object_rec, if_pos rfl]

/-- Unfolding of the fuel transcription: word inside no block. -/
theorem gc_mark_object_rec_none {heap : List Block} {ptr : Nat} (fuel : Nat) (hp : ptr ≠ 0)
    (hfind : get_header_from_data_ptr heap ptr = none) :
    gc_mark_object_rec (fuel + 1) heap ptr = some heap := by
  rw [gc_mark_object_rec, if_neg hp, hfind]

/-- Unfolding of the fuel transcription: already marked block. -/
theorem gc_mark_object_rec_marked {heap : List Block} {ptr : Nat} {b : Block} (fuel : Nat)
    (hp : ptr ≠ 0) (hfind : get_header_from_data_ptr heap ptr = some b)
    (hm : b.marked = true) :
    gc_mark_object_rec (fuel + 1) heap ptr = some heap := by
  rw [gc_mark_object_rec, if_neg hp, hfind]
  simp [hm]

/-- Unfolding of the fuel transcription: unmarked block, mark then scan. -/
theorem gc_mark_object_rec_unmarked {heap : List Block} {ptr : Nat} {b : Block} (fuel : Nat)
    (hp : ptr ≠ 0) (hfind : get_header_from_data_ptr heap ptr = some b)
    (hm : b.marked = false) :
    gc_mark_object_rec (fuel + 1) heap ptr
      = gc_mark_region_rec fuel (markBlock heap b.addr) b.data := by
  rw [gc_mark_object_rec, if_neg hp, hfind]
  simp [hm]

/-- Unfolding of the fuel transcription: empty region. -/
theorem gc_mark_region_rec_nil (fuel : Nat) (heap : List Block) :
    gc_mark_region_rec fuel heap [] = some heap := by
  rw [gc_mark_region_rec]

/-- Unfolding of the fuel transcription: region step after a successful
word visit. -/
theorem gc_mark_region_rec_cons {heap h₂ : List Block} {w : Nat} (fuel : Nat) (ws : List Nat)
    (h : gc_mark_object_rec fuel heap w = some h₂) :
    gc_mark_region_rec fuel heap (w :: ws) = gc_mark_region_rec fuel h₂ ws := by
  rw [gc_mark_region_rec, h]

/-- With fuel beyond the number of unmarked blocks, the literal fuel
transcription of the C mark recursion always returns (the recursion depth
is bounded), and it agrees with the worklist traversal. -/
theorem gc_mark_rec_complete (n : Nat) :
    ∀ heap : List Block, unmarkedCount heap ≤ n →
      (∀ ptr fuel, n < fuel →
          gc_mark_object_rec fuel heap ptr = some (gc_mark_object heap ptr))
      ∧ ∀ ws fuel, n < fuel →
          gc_mark_region_rec fuel heap ws = some (gc_mark_loop heap ws) := by
  induction n using Nat.strong_induction_on with
  | _ n IH =>
    have hobj : ∀ heap : List Block, unmarkedCount heap ≤ n → ∀ ptr fuel, n < fuel →
        gc_mark_object_rec fuel heap ptr = some (gc_mark_object heap ptr) := by
      intro heap hn ptr fuel hf
      cases fuel with
      | zero => exact absurd hf (Nat.not_lt_zero n)
      | succ f =>
        by_cases hp : ptr = 0
        · subst hp
          rw [gc_mark_object_rec_zero, gc_mark_object_zero]
        · cases hfind : get_header_from_data_ptr heap ptr with
          | none => rw [gc_mark_object_rec_none f hp hfind, gc_mark_object_none hfind]
          | some b =>
            cases hm : b.marked with
            | true =>
              rw [gc_mark_object_rec_marked f hp hfind hm, gc_mark_object_marked hp hfind hm]
            | false =>
              rw [gc_mark_object_rec_unmarked f hp hfind hm,
                gc_mark_object_unmarked hp hfind hm, gc_mark_from_region_eq_loop]
              have hlt : unmarkedCount (markBlock heap b.addr) < unmarkedCount heap :=
                unmarkedCount_markBlock_lt hfind hm
              exact (IH (unmarkedCount (markBlock heap b.addr)) (by omega) _
                (Nat.le_refl _)).2 b.data f (by omega)
    have hreg : ∀ (ws : List Nat) (heap : List Block), unmarkedCount heap ≤ n →
        ∀ fuel, n < fuel →
          gc_mark_region_rec fuel heap ws = some (gc_mark_loop heap ws) := by
      intro ws
      induction ws with
      | nil =>
        intro heap hn fuel hf
        rw [gc_mark_region_rec_nil, gc_mark_loop_nil]
      | cons w rest ihw =>
        intro heap hn fuel hf
        rw [gc_mark_region_rec_cons fuel rest (hobj heap hn w fuel hf), gc_mark_loop_cons]
        exact ihw (gc_mark_object heap w)
          (Nat.le_trans (unmarkedCount_gc_mark_loop_le heap [w]) hn) fuel hf
    intro heap hn
    exact ⟨hobj heap hn, fun ws => hreg ws heap hn⟩

/-- Closed form of the sweep: survivors are exactly the marked blocks in
their original order with the mark bit cleared; the freed list is exactly
the unmarked blocks in their original order. -/
theorem gc_sweep_eq (heap : List Block) :
    gc_sweep heap
      = ((heap.filter fun b => b.marked).map fun b => { b with marked := false },
         heap.filter fun b => !b.marked) := by
  induction heap with
  | nil => rfl
  | cons b t ih =>
    rw [gc_sweep, ih]
    cases hm : b.marked
    · simp [List.filter_cons, hm]
    · simp [List.filter_cons, hm]

/-- `GC_malloc` when the first underlying allocation succeeds: no
collection, the new block is spliced at the registry head. -/
theorem GC_malloc_first_success {alloc1 alloc2 : Nat → Option Nat} {roots d : List Nat}
    {heap : List Block} {size a : Nat}
    (h : alloc1 ((headerSize + size) % 2 ^ wbits) = some a) :
    GC_malloc alloc1 alloc2 roots d heap size
      = { heap := { marked := false, size := size, addr := a + headerSize, data := d } :: heap,
          ret := a + headerSize,
          requests := [(headerSize + size) % 2 ^ wbits],
          collections := 0 } := by
  simp only [GC_malloc, h]

/-- `GC_malloc` when the first allocation fails and the retry after one
collection cycle succeeds. -/
theorem GC_malloc_retry_success {alloc1 alloc2 : Nat → Option Nat} {roots d : List Nat}
    {heap : List Block} {size a : Nat}
    (h1 : alloc1 ((headerSize + size) % 2 ^ wbits) = none)
    (h2 : alloc2 ((headerSize + size) % 2 ^ wbits) = some a) :
    GC_malloc alloc1 alloc2 roots d heap size
      = { heap := { marked := false, size := size, addr := a + headerSize, data := d }
            :: (gc_collect heap roots).1,
          ret := a + headerSize,
          requests := [(headerSize + size) % 2 ^ wbits, (headerSize + size) % 2 ^ wbits],
          collections := 1 } := by
  simp only [GC_malloc, h1, h2]

/-- `GC_malloc` when both underlying allocations fail: out of memory, a
null return after exactly one collection cycle. -/
theorem GC_malloc_oom {alloc1 alloc2 : Nat → Option Nat} {roots d : List Nat}
    {heap : List Block} {size : Nat}
    (h1 : alloc1 ((headerSize + size) % 2 ^ wbits) = none)
    (h2 : alloc2 ((headerSize + size) % 2 ^ wbits) = none) :
    GC_malloc alloc1 alloc2 roots d heap size
      = { heap := (gc_collect heap roots).1,
          ret := 0,
          requests := [(headerSize + size) % 2 ^ wbits, (headerSize + size) % 2 ^ wbits],
          collections := 1 } := by
  simp only [GC_malloc, h1, h2]

/-- C2: `MarkObject` terminates on every input, cycles included: with any
fuel exceeding the number of unmarked blocks, the literal fuel-indexed
transcription of the recursive C `gc_mark_object` returns (it never
exhausts the fuel, i.e. the recursion depth is bounded by the unmarked
count), and its result is the total worklist function `gc_mark_object`, on
which a revisit of a marked block is a no-op. -/
theorem mark_object_terminates (heap : List Block) (ptr : Nat) (fuel : Nat)
    (h : unmarkedCount heap < fuel) :
    gc_mark_object_rec fuel heap ptr = some (gc_mark_object heap ptr) :=
  (gc_mark_rec_complete (unmarkedCount heap) heap (Nat.le_refl _)).1 ptr fuel h

/-- Witness for C2 at the cycle of length one: a block at address 100
holding a self-reference in its own data region; the recursion returns at
fuel 2. -/
theorem mark_object_terminates_witness :
    gc_mark_object_rec 2 [⟨false, 8, 100, [100]⟩] 100
      = some (gc_mark_object [⟨false, 8, 100, [100]⟩] 100) :=
  mark_object_terminates [⟨false, 8, 100, [100]⟩] 100 2 (by decide)

/-- C3: in a well-formed registry, every interior address of a block data
region finds exactly that block. -/
theorem find_owning_block_correct (heap : List Block) (B : Block) (o : Nat)
    (hwf : WF heap) (hB : B ∈ heap) (ho : o < B.size) :
    get_header_from_data_ptr heap (B.addr + o) = some B := by
  obtain ⟨hdisj, -, -⟩ := hwf
  induction heap with
  | nil => cases hB
  | cons c t ih =>
    rw [get_header_from_data_ptr]
    rcases List.mem_cons.mp hB with hBc | hBt
    · subst hBc
      rw [if_pos ⟨Nat.le_add_right _ _, by omega⟩]
    · have hdisjcB : dataDisjoint c B := (List.pairwise_cons.mp hdisj).1 B hBt
      have hnc : ¬ (c.addr ≤ B.addr + o ∧ B.addr + o < c.addr + c.size) := by
        rcases hdisjcB with hcb | hcb <;> omega
      rw [if_neg hnc]
      exact ih hBt (List.pairwise_cons.mp hdisj).2

/-- Witness for C3: a single 8-byte block at 100, offset 3. -/
theorem find_owning_block_correct_witness :
    get_header_from_data_ptr [⟨false, 8, 100, [0]⟩] (100 + 3) = some ⟨false, 8, 100, [0]⟩ :=
  find_owning_block_correct [⟨false, 8, 100, [0]⟩] ⟨false, 8, 100, [0]⟩ 3 (by decide)
    (by decide) (by decide)

/-- C4: an address outside every block data region is found by no block:
the scan returns the null result. -/
theorem no_false_containment (heap : List Block) (ptr : Nat)
    (h : ∀ b ∈ heap, ¬ (b.addr ≤ ptr ∧ ptr < b.addr + b.size)) :
    get_header_from_data_ptr heap ptr = none := by
  induction heap with
  | nil => rfl
  | cons c t ih =>
    rw [get_header_from_data_ptr, if_neg (h c (List.mem_cons_self c t))]
    exact ih fun b hb => h b (List.mem_cons_of_mem c hb)

/-- Witness for C4: address 50 misses the block [100, 108). -/
theorem no_false_containment_witness :
    get_header_from_data_ptr [⟨false, 8, 100, [0]⟩] 50 = none :=
  no_false_containment [⟨false, 8, 100, [0]⟩] 50 (by decide)

/-- C5: `MarkObject` is idempotent: a second call on the same candidate
reference leaves the registry (every mark bit) exactly as after the first
call. -/
theorem gc_mark_object_idem (heap : List Block) (ptr : Nat) :
    gc_mark_object (gc_mark_object heap ptr) ptr = gc_mark_object heap ptr := by
  by_cases hp : ptr = 0
  · subst hp
    rw [gc_mark_object_zero heap, gc_mark_object_zero heap]
  · cases hfind : get_header_from_data_ptr heap ptr with
    | none => rw [gc_mark_object_none hfind, gc_mark_object_none hfind]
    | some b =>
      cases hm : b.marked with
      | true => rw [gc_mark_object_marked hp hfind hm, gc_mark_object_marked hp hfind hm]
      | false =>
        have hR : gc_mark_object heap ptr = gc_mark_loop (markBlock heap b.addr) b.data := by
          rw [gc_mark_object_unmarked hp hfind hm, gc_mark_from_region_eq_loop]
        have h1 : get_header_from_data_ptr (markBlock heap b.addr) ptr
            = some { b with marked := true } := by
          rw [get_header_markBlock, hfind]
          simp
        have h2 : MarkLe (markBlock heap b.addr) (gc_mark_object heap ptr) := by
          rw [hR]
          exact gc_mark_loop_markLe _ _
        obtain ⟨c, hc, hshape, hmono⟩ := (get_header_markLe h2 ptr).2 _ h1
        exact gc_mark_object_marked hp hc (hmono rfl)

/-- C10: the sweep only clears marks, unlinks and frees: the survivors are
exactly the marked blocks, in their original relative order, with size and
data contents untouched and only the mark bit cleared; the freed blocks
are exactly the unmarked ones. -/
theorem sweep_frame_effect (heap : List Block) :
    gc_sweep heap
      = ((heap.filter fun b => b.marked).map fun b => { b with marked := false },
         heap.filter fun b => !b.marked) :=
  gc_sweep_eq heap

/-- C8: every byte count `GC_malloc` requests from the underlying system
allocator is exactly the requested size plus the fixed header overhead, in
wrapping `size_t` arithmetic, and at least one request is made. -/
theorem malloc_requests_header_overhead (alloc1 alloc2 : Nat → Option Nat)
    (roots d : List Nat) (heap : List Block) (size : Nat) :
    (GC_malloc alloc1 alloc2 roots d heap size).requests ≠ []
    ∧ ∀ r ∈ (GC_malloc alloc1 alloc2 roots d heap size).requests,
        r = (size + headerSize) % 2 ^ wbits := by
  have hcomm : (headerSize + size) % 2 ^ wbits = (size + headerSize) % 2 ^ wbits := by
    rw [Nat.add_comm]
  cases h1 : alloc1 ((headerSize + size) % 2 ^ wbits) with
  | some a =>
    rw [GC_malloc_first_success h1]
    refine ⟨by simp, ?_⟩
    intro r hr
    simp at hr
    rw [hr]
    exact hcomm
  | none =>
    cases h2 : alloc2 ((headerSize + size) % 2 ^ wbits) with
    | some a =>
      rw [GC_malloc_retry_success h1 h2]
      refine ⟨by simp, ?_⟩
      intro r hr
      simp at hr
      rw [hr]
      exact hcomm
    | none =>
      rw [GC_malloc_oom h1 h2]
      refine ⟨by simp, ?_⟩
      intro r hr
      simp at hr
      rw [hr]
      exact hcomm

/-- Witness for C8: requesting 8 bytes asks the system allocator for
exactly 32 = 8 + 24 bytes. -/
theorem malloc_requests_header_overhead_witness :
    (32 : Nat) = (8 + headerSize) % 2 ^ wbits :=
  (malloc_requests_header_overhead (fun _ => some 0) (fun _ => none) [] [] [] 8).2 32
    (by decide)

/-- C6: `GC_malloc` returns the null reference exactly when the underlying
allocator fails both before and after the one synchronous collection
cycle; a collection cycle runs exactly when the first attempt fails; a
successful first attempt returns non-null with no collection and the
registry merely extended at the head. -/
theorem malloc_oom_iff (alloc1 alloc2 : Nat → Option Nat) (roots d : List Nat)
    (heap : List Block) (size : Nat) :
    ((GC_malloc alloc1 alloc2 roots d heap size).ret = 0
      ↔ alloc1 ((headerSize + size) % 2 ^ wbits) = none
        ∧ alloc2 ((headerSize + size) % 2 ^ wbits) = none)
    ∧ (GC_malloc alloc1 alloc2 roots d heap size).collections
        = (if alloc1 ((headerSize + size) % 2 ^ wbits) = none then 1 else 0)
    ∧ ∀ a, alloc1 ((headerSize + size) % 2 ^ wbits) = some a →
        (GC_malloc alloc1 alloc2 roots d heap size).collections = 0
        ∧ (GC_malloc alloc1 alloc2 roots d heap size).ret = a + headerSize
        ∧ (GC_malloc alloc1 alloc2 roots d heap size).heap
            = { marked := false, size := size, addr := a + headerSize, data := d } :: heap := by
  cases h1 : alloc1 ((headerSize + size) % 2 ^ wbits) with
  | some a0 =>
    rw [GC_malloc_first_success h1]
    refine ⟨⟨fun habs => ?_, fun hcon => ?_⟩, ?_, ?_⟩
    · simp [headerSize] at habs
    · exact Option.noConfusion hcon.1
    · simp
    · intro a ha
      injection ha with ha
      subst ha
      exact ⟨rfl, rfl, rfl⟩
  | none =>
    cases h2 : alloc2 ((headerSize + size) % 2 ^ wbits) with
    | some a0 =>
      rw [GC_malloc_retry_success h1 h2]
      refine ⟨⟨fun habs => ?_, fun hcon => ?_⟩, ?_, ?_⟩
      · simp [headerSize] at habs
      · exact Option.noConfusion hcon.2
      · simp
      · intro a ha
        exact Option.noConfusion ha
    | none =>
      rw [GC_malloc_oom h1 h2]
      refine ⟨⟨fun _ => ⟨rfl, rfl⟩, fun _ => rfl⟩, ?_, ?_⟩
      · simp
      · intro a ha
        exact Option.noConfusion ha

/-- Witness for C6: both attempts failing yields the null return; a
successful first attempt runs no collection. -/
theorem malloc_oom_iff_witness :
    (GC_malloc (fun _ => none) (fun _ => none) [] [] [] 8).ret = 0
    ∧ (GC_malloc (fun _ => some 100) (fun _ => none) [] [] [] 8).collections = 0 :=
  ⟨(malloc_oom_iff (fun _ => none) (fun _ => none) [] [] [] 8).1.mpr ⟨rfl, rfl⟩,
   ((malloc_oom_iff (fun _ => some 100) (fun _ => none) [] [] [] 8).2.2 100 rfl).1⟩

/-- C7: between cycles every registry block is unmarked: the sweep leaves
every survivor unmarked, a successful `GC_malloc` splices a fresh unmarked
block of the requested size at the registry head, and `GC_malloc`
preserves an all-unmarked registry (no operation but the mark phase of a
collection sets a mark bit, and the following sweep clears it again). -/
theorem registry_unmarked_between_cycles (alloc1 alloc2 : Nat → Option Nat)
    (roots d : List Nat) (heap : List Block) (size : Nat) :
    (∀ b ∈ (gc_sweep heap).1, b.marked = false)
    ∧ ((GC_malloc alloc1 alloc2 roots d heap size).ret ≠ 0 →
        ∃ rest : List Block,
          (GC_malloc alloc1 alloc2 roots d heap size).heap
            = { marked := false, size := size,
                addr := (GC_malloc alloc1 alloc2 roots d heap size).ret, data := d } :: rest)
    ∧ ((∀ b ∈ heap, b.marked = false) →
        ∀ b ∈ (GC_malloc alloc1 alloc2 roots d heap size).heap, b.marked = false) := by
  have hsweep : ∀ hp : List Block, ∀ b ∈ (gc_sweep hp).1, b.marked = false := by
    intro hp b hb
    rw [gc_sweep_eq] at hb
    simp at hb
    obtain ⟨c, -, rfl⟩ := hb
    rfl
  refine ⟨hsweep heap, ?_, ?_⟩
  · intro hret
    cases h1 : alloc1 ((headerSize + size) % 2 ^ wbits) with
    | some a =>
      rw [GC_malloc_first_success h1]
      exact ⟨heap, rfl⟩
    | none =>
      cases h2 : alloc2 ((headerSize + size) % 2 ^ wbits) with
      | some a =>
        rw [GC_malloc_retry_success h1 h2]
        exact ⟨(gc_collect heap roots).1, rfl⟩
      | none =>
        rw [GC_malloc_oom h1 h2] at hret
        exact absurd rfl hret
  · intro hall b hb
    cases h1 : alloc1 ((headerSize + size) % 2 ^ wbits) with
    | some a =>
      rw [GC_malloc_first_success h1] at hb
      rcases List.mem_cons.mp hb with rfl | hbt
      · rfl
      · exact hall b hbt
    | none =>
      cases h2 : alloc2 ((headerSize + size) % 2 ^ wbits) with
      | some a =>
        rw [GC_malloc_retry_success h1 h2] at hb
        rcases List.mem_cons.mp hb with rfl | hbt
        · rfl
        · exact hsweep (gc_mark heap roots) b hbt
      | none =>
        rw [GC_malloc_oom h1 h2] at hb
        exact hsweep (gc_mark heap roots) b hb

/-- Witness for C7: after a successful allocation into an empty registry,
the (fresh, head) block carries a cleared mark bit. -/
theorem registry_unmarked_between_cycles_witness :
    (Block.mk false 8 24 []).marked = false :=
  (registry_unmarked_between_cycles (fun _ => some 0) (fun _ => none) [] [] [] 8).2.2
    (by simp) (Block.mk false 8 24 []) (by decide)

/-- A left member of a pointwise related pair of lists has a related right
partner. -/
theorem forall₂_mem_left {α β : Type} {R : α → β → Prop} {l₁ : List α} {l₂ : List β}
    (h : List.Forall₂ R l₁ l₂) {a : α} (ha : a ∈ l₁) : ∃ b ∈ l₂, R a b := by
  induction h with
  | nil => cases ha
  | cons hxy ht ih =>
    rcases List.mem_cons.mp ha with rfl | hat
    · exact ⟨_, List.mem_cons_self _ _, hxy⟩
    · obtain ⟨b, hb, hr⟩ := ih hat
      exact ⟨b, List.mem_cons_of_mem _ hb, hr⟩

/-- A right member of a pointwise related pair of lists has a related left
partner. -/
theorem forall₂_mem_right {α β : Type} {R : α → β → Prop} {l₁ : List α} {l₂ : List β}
    (h : List.Forall₂ R l₁ l₂) {b : β} (hb : b ∈ l₂) : ∃ a ∈ l₁, R a b := by
  induction h with
  | nil => cases hb
  | cons hxy ht ih =>
    rcases List.mem_cons.mp hb with rfl | hbt
    · exact ⟨_, List.mem_cons_self _ _, hxy⟩
    · obtain ⟨a, ha, hr⟩ := ih hbt
      exact ⟨a, List.mem_cons_of_mem _ ha, hr⟩

/-- `eqShape` is symmetric. -/
theorem eqShape_symm {b c : Block} (h : eqShape b c) : eqShape c b :=
  ⟨h.1.symm, h.2.1.symm, h.2.2.symm⟩

/-- `ShapeEq` is symmetric. -/
theorem ShapeEq.symm {h₁ h₂ : List Block} (h : ShapeEq h₁ h₂) : ShapeEq h₂ h₁ := by
  induction h with
  | nil => exact List.Forall₂.nil
  | cons hx ht ih => exact List.Forall₂.cons (eqShape_symm hx) ih

/-- Equal shapes give equal address lists. -/
theorem shapeEq_map_addr {h₁ h₂ : List Block} (h : ShapeEq h₁ h₂) :
    h₁.map Block.addr = h₂.map Block.addr := by
  induction h with
  | nil => rfl
  | cons hx ht ih => simp [ih, hx.1]

/-- The containment scan transfers along equal shapes. -/
theorem get_header_shapeEq {h₁ h₂ : List Block} (h : ShapeEq h₁ h₂) (ptr : Nat) :
    (get_header_from_data_ptr h₁ ptr = none → get_header_from_data_ptr h₂ ptr = none)
    ∧ ∀ b, get_header_from_data_ptr h₁ ptr = some b →
        ∃ c, get_header_from_data_ptr h₂ ptr = some c ∧ eqShape b c := by
  induction h with
  | nil =>
    refine ⟨fun _ => rfl, fun b hb => ?_⟩
    simp [get_header_from_data_ptr] at hb
  | cons hx ht ih =>
    rename_i x y t₁ t₂
    obtain ⟨ha, hs, hd⟩ := hx
    have hcond : (x.addr ≤ ptr ∧ ptr < x.addr + x.size)
        ↔ (y.addr ≤ ptr ∧ ptr < y.addr + y.size) := by rw [ha, hs]
    constructor
    · intro hn
      rw [get_header_from_data_ptr] at hn ⊢
      by_cases hc : x.addr ≤ ptr ∧ ptr < x.addr + x.size
      · rw [if_pos hc] at hn
        exact Option.noConfusion hn
      · rw [if_neg hc] at hn
        rw [if_neg fun hyc => hc (hcond.mpr hyc)]
        exact ih.1 hn
    · intro b hb
      rw [get_header_from_data_ptr] at hb ⊢
      by_cases hc : x.addr ≤ ptr ∧ ptr < x.addr + x.size
      · rw [if_pos hc] at hb
        injection hb with hb
        subst hb
        exact ⟨y, by rw [if_pos (hcond.mp hc)], ha, hs, hd⟩
      · rw [if_neg hc] at hb
        rw [if_neg fun hyc => hc (hcond.mpr hyc)]
        exact ih.2 b hb

/-- Well-formedness only concerns shapes, so it transfers along equal
shapes. -/
theorem WF_shapeEq {h₁ h₂ : List Block} (hs : ShapeEq h₁ h₂) (h : WF h₁) : WF h₂ := by
  obtain ⟨hdisj, hblocks, hnd⟩ := h
  refine ⟨?_, ?_, ?_⟩
  · clear hblocks hnd
    induction hs with
    | nil => exact List.Pairwise.nil
    | cons hx ht ih =>
      rename_i x y t₁ t₂
      obtain ⟨hd2, ht2⟩ := List.pairwise_cons.mp hdisj
      refine List.pairwise_cons.mpr ⟨?_, ih ht2⟩
      intro c' hc'
      obtain ⟨c, hc, hcs⟩ := forall₂_mem_right ht hc'
      have := hd2 c hc
      rcases this with hcase | hcase
      · exact Or.inl (by rw [← hx.1, ← hx.2.1, ← hcs.1]; exact hcase)
      · exact Or.inr (by rw [← hcs.1, ← hcs.2.1, ← hx.1]; exact hcase)
  · intro b hb
    obtain ⟨a, ha, has⟩ := forall₂_mem_right hs hb
    have := hblocks a ha
    exact ⟨has.1 ▸ this.1, by rw [← has.2.2, ← has.2.1]; exact this.2⟩
  · rw [← shapeEq_map_addr hs]
    exact hnd

/-- In a registry with no duplicate data addresses, the address identifies
the block. -/
theorem addr_inj {heap : List Block} (hnd : (heap.map Block.addr).Nodup) {b c : Block}
    (hb : b ∈ heap) (hc : c ∈ heap) (h : b.addr = c.addr) : b = c := by
  induction heap with
  | nil => cases hb
  | cons d t ih =>
    rw [List.map_cons, List.nodup_cons] at hnd
    rcases List.mem_cons.mp hb with rfl | hbt <;> rcases List.mem_cons.mp hc with rfl | hct
    · rfl
    · exact absurd (h ▸ List.mem_map_of_mem Block.addr hct) hnd.1
    · exact absurd (h ▸ List.mem_map_of_mem Block.addr hbt) hnd.1
    · exact ih hnd.2 hbt hct

/-- Every registry member appears, possibly marked, after `markBlock`. -/
theorem mem_markBlock_of_mem {heap : List Block} {a : Nat} {b : Block} (hb : b ∈ heap) :
    (if b.addr = a then { b with marked := true } else b) ∈ markBlock heap a := by
  induction heap with
  | nil => cases hb
  | cons c t ih =>
    rw [markBlock]
    rcases List.mem_cons.mp hb with rfl | hbt
    · exact List.mem_cons_self _ _
    · exact List.mem_cons_of_mem _ (ih hbt)

/-- Every member after `markBlock` is a possibly marked registry member. -/
theorem mem_markBlock {heap : List Block} {a : Nat} {c : Block} (hc : c ∈ markBlock heap a) :
    ∃ b ∈ heap, c = if b.addr = a then { b with marked := true } else b := by
  induction heap with
  | nil => cases hc
  | cons d t ih =>
    rw [markBlock] at hc
    rcases List.mem_cons.mp hc with rfl | hct
    · exact ⟨d, List.mem_cons_self d t, rfl⟩
    · obtain ⟨b, hb, hbeq⟩ := ih hct
      exact ⟨b, List.mem_cons_of_mem d hb, hbeq⟩

/-- Marked addresses transfer along pointwise mark growth. -/
theorem markedAt_markLe {h₁ h₂ : List Block} (h : MarkLe h₁ h₂) {x : Nat}
    (hm : markedAt h₁ x) : markedAt h₂ x := by
  obtain ⟨b, hb, hbm, hba⟩ := hm
  obtain ⟨c, hc, ⟨hsh, hmono⟩⟩ := forall₂_mem_left h hb
  exact ⟨c, hc, hmono hbm, hsh.1 ▸ hba⟩

/-- After `markBlock heap a`, the marked addresses are `a` (when some
block has address `a`) together with the previously marked addresses. -/
theorem markedAt_markBlock {heap : List Block} {a : Nat} (hex : ∃ b ∈ heap, b.addr = a)
    (x : Nat) : markedAt (markBlock heap a) x ↔ x = a ∨ markedAt heap x := by
  constructor
  · intro ⟨c, hc, hcm, hca⟩
    obtain ⟨b, hb, hbeq⟩ := mem_markBlock hc
    by_cases hba : b.addr = a
    · rw [if_pos hba] at hbeq
      exact Or.inl (by rw [← hca, hbeq, hba])
    · rw [if_neg hba] at hbeq
      exact Or.inr ⟨b, hb, by rw [← hbeq]; exact hcm, by rw [← hbeq]; exact hca⟩
  · intro hx
    rcases hx with rfl | hm
    · obtain ⟨b, hb, hba⟩ := hex
      have := mem_markBlock_of_mem (a := x) hb
      rw [if_pos hba] at this
      exact ⟨{ b with marked := true }, this, rfl, hba⟩
    · exact markedAt_markLe (markBlock_markLe heap a) hm

/-- A pending-reachable address is never an already marked one. -/
theorem reachThru_not_mem {heap : List Block} {M : Nat → Prop} {ws : List Nat} {a : Nat}
    (h : ReachThru heap M ws a) : ¬ M a := by
  cases h with
  | root w b hw hfind hM => exact hM
  | step a0 c w b hr hc hca hwc hfind hM => exact hM

/-- `ReachThru` only depends on the extension of the marked set. -/
theorem reachThru_congr_M {heap : List Block} {M M' : Nat → Prop} {ws : List Nat} {a : Nat}
    (hMM : ∀ x, M x ↔ M' x) (h : ReachThru heap M ws a) : ReachThru heap M' ws a := by
  induction h with
  | root w b hw hfind hM => exact ReachThru.root w b hw hfind fun hx => hM ((hMM _).mpr hx)
  | step a0 c w b hr hc hca hwc hfind hM ih =>
    exact ReachThru.step a0 c w b ih hc hca hwc hfind fun hx => hM ((hMM _).mpr hx)

/-- `ReachThru` only depends on the shapes of the registry blocks. -/
theorem reachThru_shape {h₁ h₂ : List Block} {M : Nat → Prop} {ws : List Nat} {a : Nat}
    (hs : ShapeEq h₁ h₂) (h : ReachThru h₁ M ws a) : ReachThru h₂ M ws a := by
  induction h with
  | root w b hw hfind hM =>
    obtain ⟨c, hc, hcs⟩ := (get_header_shapeEq hs w).2 b hfind
    exact hcs.1 ▸ ReachThru.root w c hw hc (hcs.1 ▸ hM)
  | step a0 c w b hr hc hca hwc hfind hM ih =>
    obtain ⟨c2, hc2, hc2s⟩ := forall₂_mem_left hs hc
    obtain ⟨b2, hb2, hb2s⟩ := (get_header_shapeEq hs w).2 b hfind
    exact hb2s.1 ▸ ReachThru.step a0 c2 w b2 ih hc2 (hc2s.1 ▸ hca)
      (hc2s.2.2 ▸ hwc) hb2 (hb2s.1 ▸ hM)

/-- Nothing is pending-reachable from an empty worklist. -/
theorem reachThru_nil {heap : List Block} {M : Nat → Prop} {a : Nat}
    (h : ReachThru heap M [] a) : False := by
  induction h with
  | root w b hw hfind hM => cases hw
  | step a0 c w b hr hc hca hwc hfind hM ih => exact ih

/-- `ReachThru` is monotone in the worklist. -/
theorem reachThru_ws_sub {heap : List Block} {M : Nat → Prop} {ws ws' : List Nat} {a : Nat}
    (hsub : ∀ x ∈ ws, x ∈ ws') (h : ReachThru heap M ws a) : ReachThru heap M ws' a := by
  induction h with
  | root w b hw hfind hM => exact ReachThru.root w b (hsub w hw) hfind hM
  | step a0 c w b hr hc hca hwc hfind hM ih =>
    exact ReachThru.step a0 c w b ih hc hca hwc hfind hM

/-- A worklist word inside no block contributes nothing. -/
theorem reachThru_cons_none {heap : List Block} {M : Nat → Prop} {w : Nat} {rest : List Nat}
    {a : Nat} (hw : get_header_from_data_ptr heap w = none) :
    ReachThru heap M (w :: rest) a ↔ ReachThru heap M rest a := by
  constructor
  · intro h
    induction h with
    | root w' b hw' hfind hM =>
      rcases List.mem_cons.mp hw' with rfl | hw't
      · rw [hw] at hfind
        exact Option.noConfusion hfind
      · exact ReachThru.root w' b hw't hfind hM
    | step a0 c w' b hr hc hca hwc hfind hM ih =>
      exact ReachThru.step a0 c w' b ih hc hca hwc hfind hM
  · exact reachThru_ws_sub fun x hx => List.mem_cons_of_mem w hx

/-- A worklist word owned by an already marked block contributes
nothing. -/
theorem reachThru_cons_marked {heap : List Block} {M : Nat → Prop} {w : Nat}
    {rest : List Nat} {b : Block} {a : Nat}
    (hw : get_header_from_data_ptr heap w = some b) (hbM : M b.addr) :
    ReachThru heap M (w :: rest) a ↔ ReachThru heap M rest a := by
  constructor
  · intro h
    induction h with
    | root w' b' hw' hfind hM =>
      rcases List.mem_cons.mp hw' with rfl | hw't
      · rw [hw] at hfind
        injection hfind with hfind
        subst hfind
        exact absurd hbM hM
      · exact ReachThru.root w' b' hw't hfind hM
    | step a0 c w' b' hr hc hca hwc hfind hM ih =>
      exact ReachThru.step a0 c w' b' ih hc hca hwc hfind hM
  · exact reachThru_ws_sub fun x hx => List.mem_cons_of_mem w hx

/-- The central step of the mark invariant: popping a word owned by an
unmarked block `b` marks `b` and queues its data words, and the pending
set changes accordingly (relative to the marked set). -/
theorem reachThru_mark_step {heap : List Block} {M : Nat → Prop} {w : Nat}
    {rest : List Nat} {b : Block}
    (hw : get_header_from_data_ptr heap w = some b) (hbM : ¬ M b.addr)
    (huniq : ∀ c ∈ heap, c.addr = b.addr → c = b) (x : Nat) :
    (M x ∨ ReachThru heap M (w :: rest) x)
      ↔ (M x ∨ x = b.addr
          ∨ ReachThru heap (fun y => y = b.addr ∨ M y) (b.data ++ rest) x) := by
  constructor
  · intro hx
    rcases hx with hx | hx
    · exact Or.inl hx
    · refine Or.inr ?_
      induction hx with
      | root w' b' hw' hfind hM =>
        rcases List.mem_cons.mp hw' with rfl | hw't
        · rw [hw] at hfind
          injection hfind with hfind
          subst hfind
          exact Or.inl rfl
        · by_cases hba : b'.addr = b.addr
          · exact Or.inl hba
          · refine Or.inr (ReachThru.root w' b'
              (List.mem_append.mpr (Or.inr hw't)) hfind ?_)
            intro hcon
            rcases hcon with hcon | hcon
            · exact hba hcon
            · exact hM hcon
      | step a0 c w' b' hr hc hca hwc hfind hM ih =>
        by_cases hba : b'.addr = b.addr
        · exact Or.inl hba
        · refine Or.inr ?_
          rcases ih with ha0 | hr'
          · have hcb : c = b := huniq c hc (hca.trans ha0)
            subst hcb
            refine ReachThru.root w' b' (List.mem_append.mpr (Or.inl hwc)) hfind ?_
            intro hcon
            rcases hcon with hcon | hcon
            · exact hba hcon
            · exact hM hcon
          · refine ReachThru.step a0 c w' b' hr' hc hca hwc hfind ?_
            intro hcon
            rcases hcon with hcon | hcon
            · exact hba hcon
            · exact hM hcon
  · intro hx
    rcases hx with hx | hx | hx
    · exact Or.inl hx
    · subst hx
      exact Or.inr (ReachThru.root w b (List.mem_cons_self w rest) hw hbM)
    · refine Or.inr ?_
      induction hx with
      | root w' b' hw' hfind hM =>
        have hM' : ¬ M b'.addr := fun hcon => hM (Or.inr hcon)
        have hba : b'.addr ≠ b.addr := fun hcon => hM (Or.inl hcon)
        rcases List.mem_append.mp hw' with hwd | hwr
        · refine ReachThru.step b.addr b w' b' ?_ (get_header_mem hw) rfl hwd hfind hM'
          exact ReachThru.root w b (List.mem_cons_self w rest) hw hbM
        · exact ReachThru.root w' b' (List.mem_cons_of_mem w hwr) hfind hM'
      | step a0 c w' b' hr hc hca hwc hfind hM ih =>
        have hM' : ¬ M b'.addr := fun hcon => hM (Or.inr hcon)
        exact ReachThru.step a0 c w' b' ih hc hca hwc hfind hM'

/-- The fundamental mark-phase invariant: after running the worklist, the
marked addresses are the previously marked ones together with the
pending-reachable ones, cut at the previously marked set. -/
theorem markedAt_gc_mark_loop (heap : List Block) (ws : List Nat) :
    WF heap → ∀ x, markedAt (gc_mark_loop heap ws) x
      ↔ markedAt heap x ∨ ReachThru heap (markedAt heap) ws x := by
  induction heap, ws using gc_mark_loop.induct with
  | case1 heap =>
    intro hwf x
    rw [gc_mark_loop_nil]
    exact ⟨fun h => Or.inl h, fun h => h.elim id fun hr => (reachThru_nil hr).elim⟩
  | case2 heap rest ih =>
    intro hwf x
    rw [gc_mark_loop_cons_zero, ih hwf x,
      reachThru_cons_none (get_header_zero fun b hb => (hwf.2.1 b hb).1)]
  | case3 heap ptr rest hp hfind ih =>
    intro hwf x
    rw [gc_mark_loop_cons_none _ hfind, ih hwf x, reachThru_cons_none hfind]
  | case4 heap ptr rest hp b hfind hm ih =>
    intro hwf x
    rw [gc_mark_loop_cons_marked _ hp hfind hm, ih hwf x,
      reachThru_cons_marked hfind ⟨b, get_header_mem hfind, hm, rfl⟩]
  | case5 heap ptr rest hp b hfind hm ih =>
    intro hwf x
    have hm' : b.marked = false := by simpa using hm
    have hbmem : b ∈ heap := get_header_mem hfind
    have hshape : ShapeEq heap (markBlock heap b.addr) :=
      MarkLe.shapeEq (markBlock_markLe heap b.addr)
    have hwf' : WF (markBlock heap b.addr) := WF_shapeEq hshape hwf
    have huniq : ∀ c ∈ heap, c.addr = b.addr → c = b := fun c hc hca =>
      addr_inj hwf.2.2 hc hbmem hca
    have hbM : ¬ markedAt heap b.addr := by
      intro ⟨c, hc, hcm, hca⟩
      rw [huniq c hc hca, hm'] at hcm
      exact Bool.noConfusion hcm
    have hmark : ∀ y, markedAt (markBlock heap b.addr) y ↔ y = b.addr ∨ markedAt heap y :=
      markedAt_markBlock ⟨b, hbmem, rfl⟩
    rw [gc_mark_loop_cons_unmarked _ hp hfind hm', ih hwf' x]
    have h3 : ReachThru (markBlock heap b.addr) (markedAt (markBlock heap b.addr))
          (b.data ++ rest) x
        ↔ ReachThru heap (fun y => y = b.addr ∨ markedAt heap y) (b.data ++ rest) x := by
      constructor
      · intro h
        exact reachThru_congr_M hmark (reachThru_shape (ShapeEq.symm hshape) h)
      · intro h
        exact reachThru_shape hshape (reachThru_congr_M (fun y => (hmark y).symm) h)
    have h4 := @reachThru_mark_step heap (markedAt heap) ptr rest b hfind hbM huniq x
    rw [hmark x, h3]
    tauto

/-- Every pending-reachable address is the address of a block the
containment scan can return. -/
theorem reachThru_found {heap : List Block} {M : Nat → Prop} {ws : List Nat} {x : Nat}
    (h : ReachThru heap M ws x) :
    ∃ w b, get_header_from_data_ptr heap w = some b ∧ b.addr = x := by
  cases h with
  | root w b hw hfind hM => exact ⟨w, b, hfind, rfl⟩
  | step a c w b hr hc hca hwc hfind hM => exact ⟨w, b, hfind, rfl⟩

/-- Every reachable block is a registry member. -/
theorem reachable_mem {heap : List Block} {roots : List Nat} {b : Block}
    (h : Reachable heap roots b) : b ∈ heap := by
  cases h with
  | root w b hw hfind => exact get_header_mem hfind
  | step c w b hr hwc hfind => exact get_header_mem hfind

/-- Reachability of a block is pending-reachability of its address from
the root words, with nothing marked yet. -/
theorem reachable_iff_reachThru {heap : List Block} {roots : List Nat} (hwf : WF heap)
    (x : Nat) :
    (∃ b ∈ heap, Reachable heap roots b ∧ b.addr = x)
      ↔ ReachThru heap (fun _ => False) roots x := by
  constructor
  · intro ⟨b, hb, hr, hx⟩
    subst hx
    clear hb
    induction hr with
    | root w b hw hfind => exact ReachThru.root w b hw hfind fun h => h
    | step c w b hr hwc hfind ih =>
      exact ReachThru.step c.addr c w b ih (reachable_mem hr) rfl hwc hfind fun h => h
  · intro h
    induction h with
    | root w b hw hfind => exact ⟨b, get_header_mem hfind, Reachable.root w b hw hfind, rfl⟩
    | step a0 c w b hr hc hca hwc hfind hM ih =>
      obtain ⟨b0, hb0, hb0r, hb0a⟩ := ih
      have hcb0 : c = b0 := addr_inj hwf.2.2 hc hb0 (hca.trans hb0a.symm)
      exact ⟨b, get_header_mem hfind,
        Reachable.step b0 w b hb0r (hcb0 ▸ hwc) hfind, rfl⟩

/-- In an all-unmarked registry no address is marked. -/
theorem markedAt_of_unmarked {heap : List Block} (hinit : ∀ b ∈ heap, b.marked = false)
    {x : Nat} (h : markedAt heap x) : False := by
  obtain ⟨b, hb, hbm, -⟩ := h
  rw [hinit b hb] at hbm
  exact Bool.noConfusion hbm

/-- Mark-phase correctness: starting from an all-unmarked well-formed
registry, the root scan marks exactly the addresses of the blocks
transitively reachable from the root words. -/
theorem markedAt_gc_mark {heap : List Block} {roots : List Nat} (hwf : WF heap)
    (hinit : ∀ b ∈ heap, b.marked = false) (x : Nat) :
    markedAt (gc_mark heap roots) x
      ↔ ∃ b ∈ heap, Reachable heap roots b ∧ b.addr = x := by
  rw [gc_mark, gc_mark_from_region_eq_loop, markedAt_gc_mark_loop heap roots hwf x,
    reachable_iff_reachThru hwf x]
  have hMF : ∀ y, markedAt heap y ↔ False :=
    fun y => ⟨fun hy => markedAt_of_unmarked hinit hy, False.elim⟩
  constructor
  · intro h
    rcases h with h | h
    · exact ((hMF x).mp h).elim
    · exact reachThru_congr_M hMF h
  · intro h
    exact Or.inr (reachThru_congr_M (fun y => (hMF y).symm) h)

/-- Blocks with equal fields are equal. -/
theorem Block.eq_of_fields {b c : Block} (hm : b.marked = c.marked) (hs : b.size = c.size)
    (ha : b.addr = c.addr) (hd : b.data = c.data) : b = c := by
  cases b
  cases c
  simp_all

/-- C1: a full collection cycle keeps exactly the blocks transitively
reachable from the Root Region, each still in the registry with a cleared
mark bit, and removes and frees exactly the unreachable ones.  The
preconditions are the real-memory well-formedness of the registry and the
between-cycles invariant that all mark bits start cleared. -/
theorem gc_collect_reclaims_exactly (heap : List Block) (roots : List Nat)
    (hwf : WF heap) (hinit : ∀ b ∈ heap, b.marked = false) :
    (∀ b, b ∈ (gc_collect heap roots).1 ↔ b ∈ heap ∧ Reachable heap roots b)
    ∧ (∀ b ∈ (gc_collect heap roots).1, b.marked = false)
    ∧ (∀ b ∈ heap, ¬ Reachable heap roots b → b ∈ (gc_collect heap roots).2) := by
  have hML : MarkLe heap (gc_mark heap roots) := by
    rw [gc_mark, gc_mark_from_region_eq_loop]
    exact gc_mark_loop_markLe heap roots
  have hSE : ShapeEq heap (gc_mark heap roots) := MarkLe.shapeEq hML
  have hcol1 : (gc_collect heap roots).1
      = ((gc_mark heap roots).filter fun b => b.marked).map
          fun b => { b with marked := false } := by
    rw [gc_collect, gc_sweep_eq]
  have hcol2 : (gc_collect heap roots).2
      = (gc_mark heap roots).filter fun b => !b.marked := by
    rw [gc_collect, gc_sweep_eq]
  refine ⟨?_, ?_, ?_⟩
  · intro b
    constructor
    · intro hb
      rw [hcol1] at hb
      simp only [List.mem_map, List.mem_filter] at hb
      obtain ⟨c, ⟨hcR, hcm⟩, hbc⟩ := hb
      obtain ⟨b0, hb0, hb0r, hb0a⟩ :=
        (markedAt_gc_mark hwf hinit c.addr).mp ⟨c, hcR, hcm, rfl⟩
      obtain ⟨a0, ha0, ha0s⟩ := forall₂_mem_right hSE hcR
      have ha0b : a0 = b0 := addr_inj hwf.2.2 ha0 hb0 (ha0s.1.trans hb0a.symm)
      rw [ha0b] at ha0s
      have hb_eq : b = b0 := by
        rw [← hbc]
        exact Block.eq_of_fields (by rw [hinit b0 hb0]) ha0s.2.1.symm ha0s.1.symm
          ha0s.2.2.symm
      rw [hb_eq]
      exact ⟨hb0, hb0r⟩
    · intro ⟨hb, hbr⟩
      obtain ⟨c, hcR, hcm, hca⟩ :=
        (markedAt_gc_mark hwf hinit b.addr).mpr ⟨b, hb, hbr, rfl⟩
      obtain ⟨a0, ha0, ha0s⟩ := forall₂_mem_right hSE hcR
      have ha0b : a0 = b := addr_inj hwf.2.2 ha0 hb (ha0s.1.trans hca)
      rw [ha0b] at ha0s
      have hbc : { c with marked := false } = b :=
        Block.eq_of_fields (by rw [hinit b hb]) ha0s.2.1.symm ha0s.1.symm ha0s.2.2.symm
      rw [hcol1, ← hbc]
      exact List.mem_map_of_mem _ (List.mem_filter.mpr ⟨hcR, hcm⟩)
  · intro b hb
    rw [hcol1] at hb
    simp only [List.mem_map, List.mem_filter] at hb
    obtain ⟨c, -, hbc⟩ := hb
    rw [← hbc]
  · intro b hb hnr
    obtain ⟨c, hcR, hcs⟩ := forall₂_mem_left hML hb
    have hcm : c.marked = false := by
      cases hcmv : c.marked
      · rfl
      · exfalso
        obtain ⟨b0, hb0, hb0r, hb0a⟩ :=
          (markedAt_gc_mark hwf hinit c.addr).mp ⟨c, hcR, hcmv, rfl⟩
        have hb0b : b0 = b := addr_inj hwf.2.2 hb0 hb (hb0a.trans hcs.1.1.symm)
        rw [hb0b] at hb0r
        exact hnr hb0r
    have hbc : b = c :=
      Block.eq_of_fields (by rw [hcm, hinit b hb]) hcs.1.2.1 hcs.1.1 hcs.1.2.2
    rw [hcol2, hbc]
    exact List.mem_filter.mpr ⟨hcR, by rw [hcm]; rfl⟩

/-- Witness for C1: a rooted 8-byte block survives its collection. -/
theorem gc_collect_reclaims_exactly_witness :
    Block.mk false 8 100 [0] ∈ (gc_collect [Block.mk false 8 100 [0]] [100]).1 :=
  ((gc_collect_reclaims_exactly [Block.mk false 8 100 [0]] [100] (by decide)
      (by decide)).1 (Block.mk false 8 100 [0])).mpr
    ⟨by decide, Reachable.root 100 (Block.mk false 8 100 [0]) (by decide) (by decide)⟩

/-- C9: a zero-size block is never returned by the containment lookup (its
data interval is empty), its address is never marked by the root scan, and
every collection cycle unlinks and frees it, even when its data address is
live among the root words. -/
theorem zero_size_block_collected (heap : List Block) (roots : List Nat) (b : Block)
    (hwf : WF heap) (hb : b ∈ heap) (hsz : b.size = 0) (hm : b.marked = false) :
    (∀ ptr, get_header_from_data_ptr heap ptr ≠ some b)
    ∧ ¬ markedAt (gc_mark heap roots) b.addr
    ∧ b ∉ (gc_collect heap roots).1
    ∧ b ∈ (gc_collect heap roots).2 := by
  have hnofind : ∀ ptr, get_header_from_data_ptr heap ptr ≠ some b := by
    intro ptr hcon
    have := get_header_contains hcon
    omega
  have hR : ¬ markedAt (gc_mark heap roots) b.addr := by
    rw [gc_mark, gc_mark_from_region_eq_loop]
    intro hcon
    rw [markedAt_gc_mark_loop heap roots hwf b.addr] at hcon
    rcases hcon with hcon | hcon
    · obtain ⟨c, hc, hcm, hca⟩ := hcon
      rw [addr_inj hwf.2.2 hc hb hca, hm] at hcm
      exact Bool.noConfusion hcm
    · obtain ⟨w, b2, hfind, hba⟩ := reachThru_found hcon
      have hb2b : b2 = b := addr_inj hwf.2.2 (get_header_mem hfind) hb hba
      rw [hb2b] at hfind
      exact hnofind w hfind
  have hML : MarkLe heap (gc_mark heap roots) := by
    rw [gc_mark, gc_mark_from_region_eq_loop]
    exact gc_mark_loop_markLe heap roots
  obtain ⟨c, hcR, hcs⟩ := forall₂_mem_left hML hb
  have hcm : c.marked = false := by
    cases hcmv : c.marked
    · rfl
    · exact absurd ⟨c, hcR, hcmv, hcs.1.1.symm⟩ hR
  have hbc : b = c :=
    Block.eq_of_fields (by rw [hm, hcm]) hcs.1.2.1 hcs.1.1 hcs.1.2.2
  refine ⟨hnofind, hR, ?_, ?_⟩
  · rw [gc_collect, gc_sweep_eq]
    intro hcon
    simp only [List.mem_map, List.mem_filter] at hcon
    obtain ⟨c2, ⟨hc2R, hc2m⟩, hc2b⟩ := hcon
    apply hR
    refine ⟨c2, hc2R, hc2m, ?_⟩
    rw [← hc2b]
  · rw [gc_collect, gc_sweep_eq, hbc]
    exact List.mem_filter.mpr ⟨hcR, by rw [hcm]; rfl⟩

/-- Witness for C9: a zero-size block at address 100 is freed by the
collection even though 100 itself is a root word. -/
theorem zero_size_block_collected_witness :
    Block.mk false 0 100 [] ∉ (gc_collect [Block.mk false 0 100 []] [100]).1
    ∧ Block.mk false 0 100 [] ∈ (gc_collect [Block.mk false 0 100 []] [100]).2 :=
  ⟨(zero_size_block_collected [Block.mk false 0 100 []] [100] (Block.mk false 0 100 [])
      (by decide) (by decide) rfl rfl).2.2.1,
   (zero_size_block_collected [Block.mk false 0 100 []] [100] (Block.mk false 0 100 [])
      (by decide) (by decide) rfl rfl).2.2.2⟩
